import Mathlib

/-
Verification of the dsp-chain `Graph` engine (src/graph.rs, latest revision).

The embedding models:
  * the node contract (`DspNode`) — the `Node` trait used by graph.rs is absent
    from the checked-out sources (only historical revisions of node.rs are
    present), so it is modelled from the spec, §4.2;
  * the daggy/petgraph DAG store used by `Graph` (external crates): a node
    vector plus an edge vector, with petgraph's swap-remove semantics for
    node removal and daggy's add-then-rollback cycle check for `add_edge`;
  * the `Graph` façade and render engine of graph.rs, translated line by line.

Frames are modelled as mono `Int` frames: `EQUILIBRIUM = 0`, signed-domain
addition is `Int` addition (the `to_sample` conversions of graph.rs are the
identity in this instantiation), and amplitudes are `Int` with `mul_amp`
being multiplication.  Rust panics of the render pass (mismatched slice
lengths in dasp's `zip_map_in_place` / `write`, or a missing node index)
are modelled as `Option.none`.
-/

namespace DspChain

/-- Modelled from the spec: the `Node` trait of §4.2 is missing from the
checked-out sources (only pre-1.0 historical revisions of node.rs / dsp.rs are
present).  A node exposes `render(buffer, sample_hz)` (in-place mutation of the
buffer; modelled as a function on buffers, the unused `sample_hz` argument is
omitted), and the `dry` / `wet` mix amplitudes. -/
structure DspNode where
  render : List Int → List Int
  dry : Int
  wet : Int

/-- Default node used only for the (never exercised) out-of-range branch of
node indexing; the Rust code panics there instead. -/
instance : Inhabited DspNode :=
  ⟨⟨fun b => b, 0, 1⟩⟩

/-- A `Connection` (edge weight) together with its endpoints as stored in the
daggy edge vector: a directed *src → dest* link carrying the buffer that holds
the last render of its source node. -/
structure Con where
  src : Nat
  dest : Nat
  buffer : List Int
deriving DecidableEq

instance : Inhabited Con :=
  ⟨⟨0, 0, []⟩⟩

/-- The `Graph` struct of graph.rs: the dag (node weights + edges), the cached
visit order, the optional master index and the reusable dry buffer. -/
structure Graph where
  nodes : List DspNode
  edges : List Con
  visit_order : List Nat
  maybe_master : Option Nat
  dry_buffer : List Int

/-- Successors of `v` in the edge list. -/
def succs (edges : List Con) (v : Nat) : List Nat :=
  (edges.filter fun e => e.src == v).map fun e => e.dest

/-- One step of the reachable-set computation: keep the set and add every
direct successor of a member. -/
def stepSet (edges : List Con) (s : List Nat) : List Nat :=
  (s ++ s.flatMap (succs edges)).dedup

/-- Fuelled reachable set: all nodes reachable from `s` in at most `fuel`
steps. -/
def reachSet (edges : List Con) : Nat → List Nat → List Nat
  | 0, s => s
  | fuel + 1, s => reachSet edges fuel (stepSet edges s)

/-- Path existence `a ↝ b` (reflexive): `b` is reachable from `a`.  A fuel of
`edges.length` covers every simple path. -/
def pathExists (edges : List Con) (a b : Nat) : Bool :=
  (reachSet edges edges.length [a]).contains b

/-- petgraph's `is_cyclic_directed`, as used by daggy's `add_edge` check: the
edge set carries a directed cycle iff some edge can reach its own source from
its destination. -/
def is_cyclic_directed (edges : List Con) : Bool :=
  edges.any fun e => pathExists edges e.dest e.src

/-- Kahn-style topological sort, modelling petgraph's `toposort` as called by
`Graph::prepare_visit_order` (the petgraph crate is external to the repo; any
valid topological order serves the claims, and the concrete facts below are
established by evaluation).  Deterministic: repeatedly emits the smallest
remaining node that has no incoming edge from a remaining node. -/
def no_incoming (edges : List Con) (remaining : List Nat) (v : Nat) : Bool :=
  !(edges.any fun e => e.dest == v && remaining.contains e.src)

/-- Recursive worker for the topological sort, fuelled by the node count. -/
def kahn (edges : List Con) : Nat → List Nat → List Nat
  | 0, _ => []
  | fuel + 1, remaining =>
    match remaining.find? (no_incoming edges remaining) with
    | none => []
    | some v => v :: kahn edges fuel (remaining.erase v)

/-- `Graph::prepare_visit_order`: recompute the cached visit order by a
topological sort of the current dag. -/
def prepare_visit_order (g : Graph) : Graph :=
  { g with visit_order := kahn g.edges g.nodes.length (List.range g.nodes.length) }

/-- `Graph::node_count`. -/
def node_count (g : Graph) : Nat :=
  g.nodes.length

/-- `Graph::connection_count`. -/
def connection_count (g : Graph) : Nat :=
  g.edges.length

/-- `Graph::master_index`. -/
def master_index (g : Graph) : Option Nat :=
  g.maybe_master

/-- `Graph::new`. -/
def Graph.new : Graph :=
  ⟨[], [], [], none, []⟩

/-- `Graph::add_node`: append the node weight to the dag's node vector and
return its index.  No visit-order recomputation (the Rust method is `O(1)`). -/
def add_node (g : Graph) (nd : DspNode) : Graph × Nat :=
  ({ g with nodes := g.nodes ++ [nd] }, g.nodes.length)

/-- `Graph::set_master`: keep the index only if a node exists for it, then
re-prepare the visit order. -/
def set_master (g : Graph) (maybe_index : Option Nat) : Graph :=
  let checked := maybe_index.bind fun index =>
    if index < g.nodes.length then some index else none
  prepare_visit_order { g with maybe_master := checked }

/-- Vector swap-removal as performed by petgraph: the last element moves into
the removed slot. -/
def swapRemove {α : Type} (l : List α) (i : Nat) : List α :=
  if i < l.length then
    match l.getLast? with
    | none => l
    | some last => (l.set i last).dropLast
  else l

/-- petgraph's `Graph::remove_node` on the dag: drop every edge incident to
`idx`, swap-remove the node, and re-point edges that referenced the old last
index at `idx`. -/
def dag_remove_node (nodes : List DspNode) (edges : List Con) (idx : Nat) :
    List DspNode × List Con :=
  if idx < nodes.length then
    let kept := edges.filter fun e => !(e.src == idx) && !(e.dest == idx)
    let lastIdx := nodes.length - 1
    let renamed := kept.map fun e =>
      { e with src := if e.src = lastIdx then idx else e.src,
               dest := if e.dest = lastIdx then idx else e.dest }
    (swapRemove nodes idx, renamed)
  else (nodes, edges)

/-- `Graph::remove_node`: reset the master if it matches the removed index,
remove the node from the dag, and re-prepare the visit order if a node was
actually removed. -/
def remove_node (g : Graph) (idx : Nat) : Graph × Option DspNode :=
  let g1 := if g.maybe_master = some idx then { g with maybe_master := none } else g
  if idx < g1.nodes.length then
    let removed := g1.nodes.getD idx default
    let r := dag_remove_node g1.nodes g1.edges idx
    (prepare_visit_order { g1 with nodes := r.1, edges := r.2 }, some removed)
  else (g1, none)

/-- `Graph::add_connection`, including daggy's `add_edge` semantics: push the
candidate edge, check `is_cyclic_directed`, and on a cycle remove the
just-added (last) edge again and report `WouldCycle` (modelled as the
`Except.error ()` value). -/
def add_connection (g : Graph) (src dest : Nat) : Graph × Except Unit Nat :=
  let attempted := g.edges ++ [⟨src, dest, []⟩]
  if is_cyclic_directed attempted then
    ({ g with edges := swapRemove attempted g.edges.length }, Except.error ())
  else
    (prepare_visit_order { g with edges := attempted }, Except.ok g.edges.length)

/-- `Graph::clear_disconnected`: iterate the indices `0 .. initial node count`,
removing (via the dag, with index shifting) every node that currently has no
inputs and no outputs; the master is cleared when it matches such an index.
Note the translation keeps the source's behaviour of **not** re-preparing the
visit order. -/
def clear_disconnected (g : Graph) : Graph × Nat :=
  (List.range g.nodes.length).foldl
    (fun acc i =>
      let gc := acc.1
      let numIn := (gc.edges.filter fun e => e.dest == i).length
      let numOut := (gc.edges.filter fun e => e.src == i).length
      if numIn = 0 ∧ numOut = 0 then
        let gm := if gc.maybe_master = some i then { gc with maybe_master := none } else gc
        let r := dag_remove_node gm.nodes gm.edges i
        ({ gm with nodes := r.1, edges := r.2 }, acc.2 + 1)
      else acc)
    (g, 0)

/-- `resize_buffer_to` of graph.rs: extend a short buffer with equilibrium
frames, truncate a long one, leave an exact-length one untouched.  Existing
frames are never overwritten. -/
def resize_buffer_to (buffer : List Int) (target_len : Nat) : List Int :=
  let len := buffer.length
  if len < target_len then buffer ++ List.replicate (target_len - len) 0
  else if len > target_len then buffer.take target_len
  else buffer

/-- `Graph::prepare_buffers`: resize the dry buffer and every connection
buffer to `buffer_size`. -/
def prepare_buffers (g : Graph) (buffer_size : Nat) : Graph :=
  { g with
    dry_buffer := resize_buffer_to g.dry_buffer buffer_size,
    edges := g.edges.map fun e =>
      { e with buffer := resize_buffer_to e.buffer buffer_size } }

/-- The mutable state carried through one render pass of
`Graph::audio_requested_from`: the edge vector (connection buffers), the dry
buffer and the caller's output buffer. -/
structure StepState where
  edges : List Con
  dry : List Int
  out : List Int
deriving DecidableEq

/-- Step 1 of the render loop: write `EQUILIBRIUM` into the first `n` slots of
a buffer (`none` models the Rust index panic when the buffer is shorter than
the requested count). -/
def zero_fill (b : List Int) (n : Nat) : Option (List Int) :=
  if n ≤ b.length then some (List.replicate n 0 ++ b.drop n) else none

/-- dasp's `slice::zip_map_in_place` specialised to the input-summing closure
of graph.rs: channel-wise addition in the signed sample domain (the identity
conversion for `Int` frames).  dasp asserts that both slices have the same
length; the mismatch panic is modelled as `none`. -/
def zip_add (a b : List Int) : Option (List Int) :=
  if a.length = b.length then some (List.zipWith (fun x y => x + y) a b) else none

/-- Step 2 of the render loop: walk the incoming connections of node `idx` and
sum each connection buffer onto the accumulator.  The daggy walker yields
incoming edges in reverse insertion order; the sum is order-independent, so the
edge vector is walked front to back here. -/
def sum_inputs (idx : Nat) : List Con → List Int → Option (List Int)
  | [], acc => some acc
  | e :: rest, acc =>
    if e.dest = idx then
      match zip_add acc e.buffer with
      | some acc2 => sum_inputs idx rest acc2
      | none => none
    else sum_inputs idx rest acc

/-- dasp's `slice::write`: copy `src` over `dst`; the length-mismatch panic is
modelled as `none`. -/
def slice_write (dst src : List Int) : Option (List Int) :=
  if dst.length = src.length then some src else none

/-- Step 5 of the render loop, dasp's `zip_map_in_place` over the rendered
(wet) buffer and the dry buffer: `wet_sample * wet + dry_sample * dry`. -/
def blend (rendered dry1 : List Int) (wetAmp dryAmp : Int) : Option (List Int) :=
  if rendered.length = dry1.length then
    some (List.zipWith (fun w d => w * wetAmp + d * dryAmp) rendered dry1)
  else none

/-- One iteration of the `visit_order` loop of `audio_requested_from`, up to
and including the dry/wet blend (steps 1–5): zero the output and dry buffers,
sum the inputs, snapshot the dry signal, render, blend. -/
def node_process (nodes : List DspNode) (idx n : Nat) (st : StepState) :
    Option StepState :=
  (zero_fill st.out n).bind fun out0 =>
  (zero_fill st.dry n).bind fun dry0 =>
  (sum_inputs idx st.edges out0).bind fun summed =>
  (slice_write dry0 summed).bind fun dry1 =>
  (blend ((nodes.getD idx default).render summed) dry1
      (nodes.getD idx default).wet (nodes.getD idx default).dry).bind fun blended =>
  some ⟨st.edges, dry1, blended⟩

/-- Step 7 of the render loop: for every outgoing connection of `idx`, resize
its buffer to the output length and copy the output into it (the resize
followed by dasp's `write` of every frame makes the buffer equal to `out`). -/
def fan_out (edges : List Con) (idx : Nat) (out : List Int) : List Con :=
  edges.map fun e => if e.src = idx then { e with buffer := out } else e

/-- The `visit_order` while-loop of `audio_requested_from`: process each node
in order, return early once the requested output node has been blended
(leaving its outgoing buffers untouched), otherwise fan the blended output out
to the outgoing connections and continue. -/
def run_visit (nodes : List DspNode) (out_node n : Nat) :
    List Nat → StepState → Option StepState
  | [], st => some st
  | idx :: rest, st =>
    (node_process nodes idx n st).bind fun st2 =>
    if idx = out_node then some st2
    else run_visit nodes out_node n rest ⟨fan_out st2.edges idx st2.out, st2.dry, st2.out⟩

/-- `Graph::audio_requested_from`: panic (modelled as `none`) when no node
exists for the index; otherwise resize the dry buffer to the output length if
needed and run the visit loop.  Returns the graph with its updated connection
buffers and dry buffer, together with the final output buffer. -/
def audio_requested_from (g : Graph) (out_node : Nat) (output : List Int) :
    Option (Graph × List Int) :=
  if out_node < g.nodes.length then
    (run_visit g.nodes out_node output.length g.visit_order
      ⟨g.edges,
       if g.dry_buffer.length ≠ output.length then
         resize_buffer_to g.dry_buffer output.length
       else g.dry_buffer,
       output⟩).map
      fun st => ({ g with edges := st.edges, dry_buffer := st.dry }, st.out)
  else none

/-- The `Node::audio_requested` implementation for `Graph`: render to the
master if set; otherwise walk `visit_order` in reverse and render to the first
node whose **input** connection count is zero (this is what the code does —
its own doc comment and the spec say "no outputs").  If no such node is found
the output is left untouched. -/
def audio_requested (g : Graph) (output : List Int) : Option (Graph × List Int) :=
  match g.maybe_master with
  | some master => audio_requested_from g master output
  | none =>
    match g.visit_order.reverse.find?
        (fun idx => (g.edges.filter fun e => e.dest == idx).length == 0) with
    | some node => audio_requested_from g node output
    | none => some (g, output)

/-- A constant generator node: its render overwrites every frame of the buffer
with the constant `k` (dry = 0, wet = 1, the §4.2 defaults for generators). -/
def nodeConst (k : Int) : DspNode :=
  ⟨fun b => b.map fun _ => k, 0, 1⟩

/-- A chain `A → B → C` of constant generators (1, 2 and 3) with no master,
built through the public API. -/
def gChain : Graph :=
  let g1 := (add_node Graph.new (nodeConst 1)).1
  let g2 := (add_node g1 (nodeConst 2)).1
  let g3 := (add_node g2 (nodeConst 3)).1
  let g4 := (add_connection g3 0 1).1
  (add_connection g4 1 2).1

/-- Three nodes with a single connection `1 → 2` and node `0` disconnected,
built through the public API; its visit order is `[0, 1, 2]`. -/
def gC2 : Graph :=
  let g1 := (add_node Graph.new (nodeConst 1)).1
  let g2 := (add_node g1 (nodeConst 2)).1
  let g3 := (add_node g2 (nodeConst 3)).1
  (add_connection g3 1 2).1

/-- Two nodes with the master set to the second (index 1), built through the
public API. -/
def gC4 : Graph :=
  let g1 := (add_node Graph.new (nodeConst 1)).1
  let g2 := (add_node g1 (nodeConst 2)).1
  set_master g2 (some 1)

/-- Two nodes joined by the connection `0 → 1`. -/
def gW3 : Graph :=
  ⟨[nodeConst 1, nodeConst 2], [⟨0, 1, []⟩], [0, 1], none, []⟩

/-- Two nodes joined by the connection `0 → 1` whose buffer holds the single
non-equilibrium frame `7` (as any buffer does after a render pass). -/
def gC9 : Graph :=
  ⟨[nodeConst 1, nodeConst 2], [⟨0, 1, [7]⟩], [0, 1], none, []⟩

/-- Two incoming connections of node 1 carrying one-frame buffers 4 and 6. -/
def edgesW6 : List Con :=
  [⟨0, 1, [4]⟩, ⟨2, 1, [6]⟩]

/-- Pass state for the chain `0 → 1 → 2` at the start of a one-frame render:
empty connection buffers, dry buffer `[0]`, stale output contents `[5]`. -/
def stW7 : StepState :=
  ⟨[⟨0, 1, []⟩, ⟨1, 2, []⟩], [0], [5]⟩

/-- C1.  With no master set, `Node::audio_requested` traverses `visit_order`
in reverse and renders to the first node with **no input connections** — not,
as the claim (and the code's own doc comment) states, the first node with no
outgoing edges.  On the chain `A → B → C` of constant generators 1, 2, 3 the
code renders `A`'s output `[1]`; rendering to the natural sink `C` (what the
claim prescribes) yields `[3]`. -/
theorem C1_default_render_renders_source_not_sink :
    (audio_requested gChain [0]).map (fun p => p.2) = some [1] ∧
    (audio_requested_from gChain 2 [0]).map (fun p => p.2) = some [3] ∧
    gChain.maybe_master = none ∧
    (gChain.edges.map fun e => (e.src, e.dest)) = [(0, 1), (1, 2)] ∧
    ([1] : List Int) ≠ [3] :=
  ⟨rfl, rfl, rfl, rfl, by decide⟩

/-- C2.  `clear_disconnected` removes nodes through the dag without
re-preparing the visit order.  Starting from three nodes with the single
connection `1 → 2` (visit order `[0, 1, 2]`), removing the disconnected node 0
shifts node 2 down to index 0, yet `visit_order` still has length 3 — which no
longer equals `node_count = 2` — and still contains the now-dead index 2;
moreover the surviving edge (now `1 → 0`) contradicts the cached order. -/
theorem C2_clear_disconnected_leaves_stale_visit_order :
    node_count (clear_disconnected gC2).1 = 2 ∧
    (clear_disconnected gC2).1.visit_order = [0, 1, 2] ∧
    (clear_disconnected gC2).1.visit_order.length ≠ node_count (clear_disconnected gC2).1 ∧
    2 ∈ (clear_disconnected gC2).1.visit_order ∧
    ¬(2 < node_count (clear_disconnected gC2).1) ∧
    ((clear_disconnected gC2).1.edges.map fun e => (e.src, e.dest)) = [(1, 0)] ∧
    (clear_disconnected gC2).1.visit_order.indexOf 0 <
      (clear_disconnected gC2).1.visit_order.indexOf 1 :=
  by refine ⟨rfl, rfl, by decide, by decide, by decide, rfl, by decide⟩

/-- C4.  `remove_node` only clears the master on an exact index match, but
node removal shifts the last node's index down.  With two nodes and
`master = Some(1)`, removing node 0 moves node 1 to index 0 and leaves
`maybe_master = Some(1)` pointing past the end of the (now one-element) node
vector: the master is neither `None` nor a live node. -/
theorem C4_remove_node_leaves_dangling_master :
    master_index (remove_node gC4 0).1 = some 1 ∧
    node_count (remove_node gC4 0).1 = 1 ∧
    ¬(1 < node_count (remove_node gC4 0).1) :=
  ⟨rfl, rfl, by decide⟩

/-- C8.  `set_master` keeps the index only when a node exists for it;
otherwise the master silently becomes `None` (no error, no panic — the model
is a total function). -/
theorem C8_set_master_invalid_clears (g : Graph) (idx : Nat)
    (h : g.nodes.length ≤ idx) :
    master_index (set_master g (some idx)) = none := by
  simp only [set_master, Option.bind, prepare_visit_order, master_index]
  rw [if_neg (Nat.not_lt.mpr h)]

/-- C8 witness: on the empty graph every index is invalid; setting the master
to index 0 leaves it `None`. -/
theorem C8_witness :
    Graph.new.nodes.length ≤ 0 ∧ master_index (set_master Graph.new (some 0)) = none :=
  ⟨by decide, C8_set_master_invalid_clears Graph.new 0 (by decide)⟩

/-- C9 counterexample.  `prepare_buffers` only resizes: a connection buffer
that already has the target length keeps its stale non-equilibrium contents,
so the buffers are *not* left "filled with equilibrium frames" as claimed. -/
theorem C9_counterexample :
    ((prepare_buffers gC9 1).edges.getD 0 default).buffer = [7] ∧
    ([7] : List Int) ≠ List.replicate 1 0 :=
  ⟨rfl, by decide⟩

/-- Resizing always produces a buffer of exactly the target length. -/
theorem resize_buffer_to_length (b : List Int) (target : Nat) :
    (resize_buffer_to b target).length = target := by
  unfold resize_buffer_to
  rcases Nat.lt_trichotomy b.length target with h | h | h
  · rw [if_pos h]; simp; omega
  · rw [if_neg (by omega), if_neg (by omega)]; omega
  · rw [if_neg (by omega), if_pos h]; simp; omega

/-- Resizing a buffer that already has the target length is the identity. -/
theorem resize_buffer_to_of_length_eq (b : List Int) (target : Nat)
    (h : b.length = target) : resize_buffer_to b target = b := by
  unfold resize_buffer_to
  rw [if_neg (by omega), if_neg (by omega)]

/-- Any slot of an equilibrium-replicate reads as equilibrium. -/
theorem getD_replicate_zero (n i : Nat) : (List.replicate n (0 : Int)).getD i 0 = 0 := by
  rcases Nat.lt_or_ge i n with h | h
  · rw [List.getD_eq_getElem _ _ (by simpa using h)]
    simp
  · rw [List.getD_eq_default _ _ (by simpa using h)]

/-- A slot beyond the original contents of a grown buffer reads as
equilibrium. -/
theorem resize_buffer_to_getD_zero (b : List Int) (target i : Nat)
    (hi : b.length ≤ i) (ht : i < target) :
    (resize_buffer_to b target).getD i 0 = 0 := by
  unfold resize_buffer_to
  rw [if_pos (by omega)]
  rw [List.getD_append_right _ _ _ _ hi]
  exact getD_replicate_zero _ _

/-- C9 amended.  `prepare_buffers N` leaves the dry buffer and every
connection buffer with length exactly `N`; any *newly added* slot reads as
equilibrium (pre-existing frames are kept, per the counterexample); and a
second consecutive `prepare_buffers N` is the identity on the result, so the
buffer sizes (indeed the whole graph) are unchanged. -/
theorem C9_prepare_buffers_amended (g : Graph) (N : Nat) :
    (prepare_buffers g N).dry_buffer.length = N ∧
    (∀ e ∈ (prepare_buffers g N).edges, e.buffer.length = N) ∧
    (∀ k i, (g.edges.getD k default).buffer.length ≤ i → i < N →
      ((prepare_buffers g N).edges.getD k default).buffer.getD i 0 = 0) ∧
    prepare_buffers (prepare_buffers g N) N = prepare_buffers g N := by
  refine ⟨resize_buffer_to_length _ _, ?_, ?_, ?_⟩
  · intro e he
    simp only [prepare_buffers, List.mem_map] at he
    obtain ⟨a, _, rfl⟩ := he
    exact resize_buffer_to_length _ _
  · intro k i hk hN
    rcases Nat.lt_or_ge k g.edges.length with h | h
    · have hmap : (prepare_buffers g N).edges.getD k default =
          { g.edges.getD k default with
            buffer := resize_buffer_to (g.edges.getD k default).buffer N } := by
        simp only [prepare_buffers]
        rw [List.getD_eq_getElem _ _ (by simpa using h),
          List.getD_eq_getElem _ _ h, List.getElem_map]
      rw [hmap]
      exact resize_buffer_to_getD_zero _ _ _ hk hN
    · have h2 : (prepare_buffers g N).edges.length ≤ k := by
        simpa only [prepare_buffers, List.length_map] using h
      rw [List.getD_eq_default _ _ h2]
      rfl
  · show Graph.mk _ _ _ _ _ = Graph.mk _ _ _ _ _
    simp only [prepare_buffers, List.map_map]
    congr 1
    · refine List.map_congr_left ?_
      intro e _
      show Con.mk _ _ _ = Con.mk _ _ _
      congr 1
      exact resize_buffer_to_of_length_eq _ _ (resize_buffer_to_length _ _)
    · exact resize_buffer_to_of_length_eq _ _ (resize_buffer_to_length _ _)

/-- C9 amended witness: on the concrete graph with the one-frame buffer `[7]`,
`prepare_buffers 2` grows the buffer and the newly added slot (index 1) reads
as equilibrium. -/
theorem C9_witness :
    (gC9.edges.getD 0 default).buffer.length ≤ 1 ∧ 1 < 2 ∧
    ((prepare_buffers gC9 2).edges.getD 0 default).buffer.getD 1 0 = 0 :=
  ⟨by decide, by decide, (C9_prepare_buffers_amended gC9 2).2.2.1 0 1 (by decide) (by decide)⟩

/-- A member of a set is a member of its successor-closure step. -/
theorem mem_stepSet_of_mem {edges : List Con} {s : List Nat} {x : Nat}
    (h : x ∈ s) : x ∈ stepSet edges s := by
  simp only [stepSet, List.mem_dedup, List.mem_append]
  exact Or.inl h

/-- Successor membership is monotone in the edge list. -/
theorem succs_mono {E F : List Con} (hEF : ∀ e ∈ E, e ∈ F) {v x : Nat}
    (h : x ∈ succs E v) : x ∈ succs F v := by
  simp only [succs, List.mem_map, List.mem_filter] at h ⊢
  obtain ⟨e, ⟨he, hsrc⟩, hdest⟩ := h
  exact ⟨e, ⟨hEF e he, hsrc⟩, hdest⟩

/-- The closure step is monotone in both the edge list and the start set. -/
theorem stepSet_mono {E F : List Con} (hEF : ∀ e ∈ E, e ∈ F) {s t : List Nat}
    (hst : ∀ x ∈ s, x ∈ t) : ∀ x ∈ stepSet E s, x ∈ stepSet F t := by
  intro x hx
  simp only [stepSet, List.mem_dedup, List.mem_append, List.mem_flatMap] at hx ⊢
  rcases hx with h | ⟨v, hv, hx⟩
  · exact Or.inl (hst x h)
  · exact Or.inr ⟨v, hst v hv, succs_mono hEF hx⟩

/-- The fuelled reachable set is monotone in the edge list and start set. -/
theorem reachSet_mono {E F : List Con} (hEF : ∀ e ∈ E, e ∈ F) (fuel : Nat) :
    ∀ {s t : List Nat}, (∀ x ∈ s, x ∈ t) →
      ∀ x ∈ reachSet E fuel s, x ∈ reachSet F fuel t := by
  induction fuel with
  | zero => intro s t hst x hx; exact hst x hx
  | succ n ih => intro s t hst x hx; exact ih (stepSet_mono hEF hst) x hx

/-- One more unit of fuel can only grow the reachable set. -/
theorem reachSet_fuel_succ {E : List Con} (fuel : Nat) :
    ∀ {s : List Nat}, ∀ x ∈ reachSet E fuel s, x ∈ reachSet E (fuel + 1) s := by
  induction fuel with
  | zero => intro s x hx; exact mem_stepSet_of_mem hx
  | succ n ih => intro s x hx; exact ih x hx

/-- A path found in an edge list survives appending a further edge (with one
extra unit of fuel for the longer list). -/
theorem pathExists_append {E : List Con} (e : Con) {a b : Nat}
    (h : pathExists E a b = true) : pathExists (E ++ [e]) a b = true := by
  simp only [pathExists, List.contains, List.elem_iff] at h ⊢
  have h1 : b ∈ reachSet (E ++ [e]) E.length [a] :=
    reachSet_mono (fun c hc => List.mem_append_left _ hc) E.length (fun x hx => hx) b h
  have h2 : b ∈ reachSet (E ++ [e]) (E.length + 1) [a] :=
    reachSet_fuel_succ E.length b h1
  simpa using h2

/-- Appending the candidate edge `src → dest` to an edge list that already has
a path `dest ↝ src` produces a cyclic edge set. -/
theorem is_cyclic_of_path {E : List Con} {src dest : Nat}
    (h : pathExists E dest src = true) :
    is_cyclic_directed (E ++ [⟨src, dest, []⟩]) = true := by
  simp only [is_cyclic_directed, List.any_eq_true]
  exact ⟨⟨src, dest, []⟩, List.mem_append_right _ (by simp), pathExists_append _ h⟩

/-- Setting the slot just before the end of an appended singleton to that very
element is the identity. -/
theorem set_append_last {α : Type} (l : List α) (e : α) :
    (l ++ [e]).set l.length e = l ++ [e] := by
  induction l with
  | nil => rfl
  | cons a t ih =>
    show a :: (t ++ [e]).set t.length e = a :: (t ++ [e])
    rw [ih]

/-- Swap-removing the just-appended last element restores the original list
(daggy's rollback of a cycle-forming edge). -/
theorem swapRemove_append_last {α : Type} (l : List α) (e : α) :
    swapRemove (l ++ [e]) l.length = l := by
  have h1 : swapRemove (l ++ [e]) l.length = ((l ++ [e]).set l.length e).dropLast := by
    unfold swapRemove
    rw [if_pos (by simp), List.getLast?_concat]
  rw [h1, set_append_last]
  exact List.dropLast_concat

/-- C3.  When a path `dest ↝ src` already exists, `add_connection src dest`
reports `WouldCycle` (daggy adds the edge, detects the cycle and removes the
just-added edge again), and the graph — in particular its connection count and
whole node/edge set — is exactly what it was before the call. -/
theorem C3_add_connection_would_cycle (g : Graph) (src dest : Nat)
    (h : pathExists g.edges dest src = true) :
    (add_connection g src dest).2 = Except.error () ∧
    (add_connection g src dest).1 = g ∧
    connection_count (add_connection g src dest).1 = connection_count g := by
  have hc := @is_cyclic_of_path g.edges src dest h
  have h1 : (add_connection g src dest).1 = g := by
    simp only [add_connection]
    rw [if_pos hc]
    show Graph.mk g.nodes (swapRemove (g.edges ++ [⟨src, dest, []⟩]) g.edges.length)
      g.visit_order g.maybe_master g.dry_buffer = g
    rw [swapRemove_append_last]
  refine ⟨?_, h1, by rw [h1]⟩
  simp only [add_connection]
  rw [if_pos hc]

/-- C3 witness: in the two-node graph with the connection `0 → 1`, a path
`0 ↝ 1` exists, so `add_connection 1 0` errors and leaves the graph intact. -/
theorem C3_witness :
    pathExists gW3.edges 0 1 = true ∧
    (add_connection gW3 1 0).2 = Except.error () ∧
    (add_connection gW3 1 0).1 = gW3 :=
  ⟨by decide, (C3_add_connection_would_cycle gW3 1 0 (by decide)).1,
   (C3_add_connection_would_cycle gW3 1 0 (by decide)).2.1⟩

/-- Inversion for a successful signed-domain buffer addition. -/
theorem zip_add_eq_some {a b c : List Int} (h : zip_add a b = some c) :
    a.length = b.length ∧ c = List.zipWith (fun x y => x + y) a b := by
  by_cases hl : a.length = b.length
  · refine ⟨hl, ?_⟩
    rw [zip_add, if_pos hl] at h
    exact (Option.some_inj.mp h).symm
  · rw [zip_add, if_neg hl] at h
    cases h

/-- A successful buffer addition preserves the accumulator length. -/
theorem zip_add_length {a b c : List Int} (h : zip_add a b = some c) :
    c.length = a.length := by
  obtain ⟨hl, hc⟩ := zip_add_eq_some h
  rw [hc, List.length_zipWith, hl, Nat.min_self]

/-- A successful input-summing pass preserves the accumulator length. -/
theorem sum_inputs_length {idx : Nat} :
    ∀ {edges : List Con} {acc s : List Int},
      sum_inputs idx edges acc = some s → s.length = acc.length := by
  intro edges
  induction edges with
  | nil =>
    intro acc s h
    simp only [sum_inputs, Option.some_inj] at h
    rw [← h]
  | cons e rest ih =>
    intro acc s h
    rw [sum_inputs] at h
    by_cases hd : e.dest = idx
    · rw [if_pos hd] at h
      cases hz : zip_add acc e.buffer with
      | none => rw [hz] at h; cases h
      | some acc2 =>
        rw [hz] at h
        rw [ih h]
        exact zip_add_length hz
    · rw [if_neg hd] at h
      exact ih h

/-- Frame-wise characterisation of the input-summing loop: each slot of the
result is the corresponding slot of the accumulator plus the sum of the
matching slots of every incoming connection buffer. -/
theorem sum_inputs_spec {idx : Nat} :
    ∀ {edges : List Con} {acc s : List Int},
      sum_inputs idx edges acc = some s →
      ∀ i, i < acc.length →
        s.getD i 0 = acc.getD i 0 +
          ((edges.filter fun e => e.dest == idx).map fun e => e.buffer.getD i 0).sum := by
  intro edges
  induction edges with
  | nil =>
    intro acc s h i hi
    simp only [sum_inputs, Option.some_inj] at h
    rw [← h]
    simp
  | cons e rest ih =>
    intro acc s h i hi
    rw [sum_inputs] at h
    by_cases hd : e.dest = idx
    · rw [if_pos hd] at h
      cases hz : zip_add acc e.buffer with
      | none => rw [hz] at h; cases h
      | some acc2 =>
        rw [hz] at h
        obtain ⟨hl, hc⟩ := zip_add_eq_some hz
        have hlen2 : acc2.length = acc.length := zip_add_length hz
        have hstep := ih h i (by rw [hlen2]; exact hi)
        have hfil : (e :: rest).filter (fun e => e.dest == idx) =
            e :: rest.filter (fun e => e.dest == idx) := by
          simp [List.filter_cons, hd]
        rw [hfil, List.map_cons, List.sum_cons, hstep]
        have hgd : acc2.getD i 0 = acc.getD i 0 + e.buffer.getD i 0 := by
          rw [hc, List.getD_eq_getElem _ _ (by rw [List.length_zipWith, hl, Nat.min_self, ← hl]; exact hi),
            List.getElem_zipWith, List.getD_eq_getElem _ _ hi, List.getD_eq_getElem _ _ (hl ▸ hi)]
        rw [hgd]
        ring
    · rw [if_neg hd] at h
      have hfil : (e :: rest).filter (fun e => e.dest == idx) =
          rest.filter (fun e => e.dest == idx) := by
        simp [List.filter_cons, hd]
      rw [hfil]
      exact ih h i hi

/-- The summing loop leaves the accumulator untouched when no incoming
connection matches. -/
theorem sum_inputs_no_match {idx : Nat} :
    ∀ {edges : List Con} {acc : List Int}, (∀ e ∈ edges, ¬e.dest = idx) →
      sum_inputs idx edges acc = some acc := by
  intro edges
  induction edges with
  | nil => intro acc _; rfl
  | cons e rest ih =>
    intro acc h
    rw [sum_inputs, if_neg (h e (by simp))]
    exact ih fun x hx => h x (by simp [hx])

/-- C6.  Within the render loop, after the input-summing step (which starts
from an equilibrium-filled accumulator and adds each incoming connection
buffer channel-wise in the signed sample domain — the identity conversion for
`Int` frames), each frame of the output equals the sum over all incoming
edges of the corresponding buffer frame; and with no incoming edges the
output is equilibrium. -/
theorem C6_input_sum (idx n : Nat) (edges : List Con) (s : List Int)
    (h : sum_inputs idx edges (List.replicate n 0) = some s) :
    (∀ i, i < n →
      s.getD i 0 = ((edges.filter fun e => e.dest == idx).map fun e => e.buffer.getD i 0).sum) ∧
    ((edges.filter fun e => e.dest == idx) = [] → s = List.replicate n 0) := by
  constructor
  · intro i hi
    have := sum_inputs_spec h i (by simpa using hi)
    rw [this, getD_replicate_zero]
    ring
  · intro hnil
    have hno : ∀ e ∈ edges, ¬e.dest = idx := by
      intro e he hd
      have : e ∈ edges.filter fun e => e.dest == idx := by
        simp [List.mem_filter, he, hd]
      rw [hnil] at this
      cases this
    have := @sum_inputs_no_match idx edges (List.replicate n 0) hno
    rw [this] at h
    exact (Option.some_inj.mp h).symm

/-- C6 witness: node 1 has two incoming one-frame buffers `[4]` and `[6]`;
the summed output frame is `10 = 4 + 6`. -/
theorem C6_witness :
    sum_inputs 1 edgesW6 (List.replicate 1 0) = some [10] ∧
    ([10] : List Int).getD 0 0 =
      ((edgesW6.filter fun e => e.dest == 1).map fun e => e.buffer.getD 0 0).sum :=
  ⟨by decide, (C6_input_sum 1 1 edgesW6 [10] (by decide)).1 0 (by decide)⟩

/-- Zero-filling a buffer of exactly the requested length yields the
equilibrium buffer. -/
theorem zero_fill_of_length_eq {b : List Int} {n : Nat} (h : b.length = n) :
    zero_fill b n = some (List.replicate n 0) := by
  rw [zero_fill, if_pos (by omega)]
  rw [show b.drop n = [] from by rw [← h]; exact List.drop_length b]
  rw [List.append_nil]

/-- Inversion for one successful render-loop iteration: the zeroing, summing,
dry-snapshot and blend stages all succeeded, the lengths matched, and the
resulting state keeps the edges, stores the input sum as the dry signal and
stores the blended `wet * rendered + dry * sum` signal as the output. -/
theorem node_process_inv {nodes : List DspNode} {idx n : Nat} {st st2 : StepState}
    (hp : node_process nodes idx n st = some st2) :
    ∃ out0 summed,
      zero_fill st.out n = some out0 ∧
      (∃ dry0, zero_fill st.dry n = some dry0 ∧ dry0.length = summed.length) ∧
      sum_inputs idx st.edges out0 = some summed ∧
      ((nodes.getD idx default).render summed).length = summed.length ∧
      st2 = ⟨st.edges, summed,
        List.zipWith
          (fun w d => w * (nodes.getD idx default).wet + d * (nodes.getD idx default).dry)
          ((nodes.getD idx default).render summed) summed⟩ := by
  rw [node_process] at hp
  cases h1 : zero_fill st.out n with
  | none => rw [h1] at hp; simp at hp
  | some out0 =>
  rw [h1, Option.some_bind] at hp
  cases h2 : zero_fill st.dry n with
  | none => rw [h2] at hp; simp at hp
  | some dry0 =>
  rw [h2, Option.some_bind] at hp
  cases h3 : sum_inputs idx st.edges out0 with
  | none => rw [h3] at hp; simp at hp
  | some summed =>
  rw [h3, Option.some_bind] at hp
  by_cases h4 : dry0.length = summed.length
  · rw [slice_write, if_pos h4, Option.some_bind] at hp
    by_cases h5 : ((nodes.getD idx default).render summed).length = summed.length
    · rw [blend, if_pos h5, Option.some_bind] at hp
      exact ⟨out0, summed, rfl, ⟨dry0, rfl, h4⟩, h3, h5, (Option.some_inj.mp hp).symm⟩
    · rw [blend, if_neg h5] at hp; simp at hp
  · rw [slice_write, if_neg h4] at hp; simp at hp

/-- A successful render-loop iteration never touches the edge vector. -/
theorem node_process_edges {nodes : List DspNode} {idx n : Nat} {st st2 : StepState}
    (hp : node_process nodes idx n st = some st2) : st2.edges = st.edges := by
  obtain ⟨_, _, _, _, _, _, hst2⟩ := node_process_inv hp
  rw [hst2]

/-- C5.  After the dry/wet combining step of a visited node, each output frame
equals `wet(n)` times the corresponding frame of the node's render applied to
the sum of its inputs, plus `dry(n)` times that same pre-render input sum
(which was snapshotted into the dry buffer before the render call). -/
theorem C5_blend_equation (nodes : List DspNode) (idx n : Nat) (st st2 : StepState)
    (hout : st.out.length = n)
    (hp : node_process nodes idx n st = some st2) :
    ∃ s, sum_inputs idx st.edges (List.replicate n 0) = some s ∧
      ∀ i, i < n →
        st2.out.getD i 0 =
          (nodes.getD idx default).wet * ((nodes.getD idx default).render s).getD i 0 +
          (nodes.getD idx default).dry * s.getD i 0 := by
  obtain ⟨out0, summed, h1, ⟨dry0, h2, h4⟩, h3, h5, hst2⟩ := node_process_inv hp
  rw [zero_fill_of_length_eq hout] at h1
  have hout0 : out0 = List.replicate n 0 := (Option.some_inj.mp h1).symm
  rw [hout0] at h3
  have hslen : summed.length = n := by
    rw [sum_inputs_length h3, List.length_replicate]
  refine ⟨summed, h3, ?_⟩
  intro i hi
  have hzl : (List.zipWith
      (fun w d => w * (nodes.getD idx default).wet + d * (nodes.getD idx default).dry)
      ((nodes.getD idx default).render summed) summed).length = n := by
    rw [List.length_zipWith, h5, hslen, Nat.min_self]
  rw [hst2]
  show (List.zipWith _ _ _).getD i 0 = _
  rw [List.getD_eq_getElem _ _ (by rw [hzl]; exact hi), List.getElem_zipWith]
  have e1 : ((nodes.getD idx default).render summed).getD i 0 =
      ((nodes.getD idx default).render summed).get ⟨i, by rw [h5, hslen]; exact hi⟩ :=
    List.getD_eq_getElem _ _ (by rw [h5, hslen]; exact hi)
  have e2 : summed.getD i 0 = summed.get ⟨i, by rw [hslen]; exact hi⟩ :=
    List.getD_eq_getElem _ _ (by rw [hslen]; exact hi)
  simp only [e1, e2, List.get_eq_getElem]
  ring

/-- C5 witness: the single constant-2 generator (wet 1, dry 0) with no inputs
on a one-frame buffer: the blended output frame is `1 * 2 + 0 * 0 = 2`. -/
theorem C5_witness :
    node_process [nodeConst 2] 0 1 ⟨[], [0], [9]⟩ = some ⟨[], [0], [2]⟩ ∧
    (∃ s, sum_inputs 0 ([] : List Con) (List.replicate 1 0) = some s ∧
      ∀ i, i < 1 →
        (⟨[], [0], [2]⟩ : StepState).out.getD i 0 =
          (([nodeConst 2].getD 0 default).wet *
            (([nodeConst 2].getD 0 default).render s).getD i 0 +
          ([nodeConst 2].getD 0 default).dry * s.getD i 0)) :=
  ⟨by decide, C5_blend_equation [nodeConst 2] 0 1 ⟨[], [0], [9]⟩ ⟨[], [0], [2]⟩
    (by decide) (by decide)⟩

/-- Fan-out preserves the edge count. -/
theorem fan_out_length (edges : List Con) (idx : Nat) (out : List Int) :
    (fan_out edges idx out).length = edges.length :=
  List.length_map _ _

/-- Fan-out leaves every edge whose source is a different node untouched. -/
theorem fan_out_getD_of_src_ne (edges : List Con) (idx : Nat) (out : List Int)
    (k : Nat) (h : ¬(edges.getD k default).src = idx) :
    (fan_out edges idx out).getD k default = edges.getD k default := by
  rcases Nat.lt_or_ge k edges.length with hk | hk
  · have hg : edges.getD k default = edges[k] := List.getD_eq_getElem _ _ hk
    rw [hg] at h
    rw [List.getD_eq_getElem _ _ (by rw [fan_out_length]; exact hk), hg]
    simp only [fan_out, List.getElem_map]
    rw [if_neg h]
  · rw [List.getD_eq_default _ _ (by rw [fan_out_length]; exact hk),
      List.getD_eq_default _ _ hk]

/-- Inversion for one step of the visit loop: the head node was processed, and
either it was the requested output node (the loop returned its state as is) or
the loop continued on the fanned-out state. -/
theorem run_visit_cons_inv {nodes : List DspNode} {out_node n idx : Nat}
    {rest : List Nat} {st st2 : StepState}
    (h : run_visit nodes out_node n (idx :: rest) st = some st2) :
    ∃ stA, node_process nodes idx n st = some stA ∧
      ((idx = out_node ∧ st2 = stA) ∨
       (idx ≠ out_node ∧
         run_visit nodes out_node n rest
           ⟨fan_out stA.edges idx stA.out, stA.dry, stA.out⟩ = some st2)) := by
  rw [run_visit] at h
  cases hA : node_process nodes idx n st with
  | none => rw [hA] at h; simp at h
  | some stA =>
    rw [hA, Option.some_bind] at h
    by_cases he : idx = out_node
    · rw [if_pos he] at h
      exact ⟨stA, rfl, Or.inl ⟨he, (Option.some_inj.mp h).symm⟩⟩
    · rw [if_neg he] at h
      exact ⟨stA, rfl, Or.inr ⟨he, h⟩⟩

/-- C7.  When the visit loop of `audio_requested_from` (which runs `run_visit`
on `visit_order`) first reaches the requested output node, it stops right
after that node's dry/wet blend: the edge count is unchanged and every
connection whose source node was not visited strictly before the output node
— in particular every outgoing connection of the output node itself and every
connection sourced at a node later in the order — still holds exactly its
pre-pass buffer. -/
theorem C7_early_termination (nodes : List DspNode) (out_node n : Nat) :
    ∀ (pre post : List Nat) (st st2 : StepState),
      out_node ∉ pre →
      run_visit nodes out_node n (pre ++ out_node :: post) st = some st2 →
      st2.edges.length = st.edges.length ∧
      ∀ k : Nat, (st.edges.getD k default).src ∉ pre →
        st2.edges.getD k default = st.edges.getD k default := by
  intro pre
  induction pre with
  | nil =>
    intro post st st2 _ hrun
    obtain ⟨stA, hA, hcases⟩ := run_visit_cons_inv hrun
    have hE := node_process_edges hA
    rcases hcases with ⟨_, rfl⟩ | ⟨hne, _⟩
    · exact ⟨by rw [hE], fun k _ => by rw [hE]⟩
    · exact absurd rfl hne
  | cons p pre2 ih =>
    intro post st st2 hpre hrun
    rw [List.cons_append] at hrun
    obtain ⟨stA, hA, hcases⟩ := run_visit_cons_inv hrun
    have hE := node_process_edges hA
    rcases hcases with ⟨heq, _⟩ | ⟨_, hrec⟩
    · exact absurd heq.symm fun h => hpre (by rw [h]; exact List.mem_cons_self _ _)
    · have hpre2 : out_node ∉ pre2 := fun h => hpre (List.mem_cons_of_mem _ h)
      obtain ⟨hlen, hslots⟩ :=
        ih post ⟨fan_out stA.edges p stA.out, stA.dry, stA.out⟩ st2 hpre2 hrec
      constructor
      · rw [hlen]
        show (fan_out stA.edges p stA.out).length = st.edges.length
        rw [fan_out_length, hE]
      · intro k hk
        have hk_ne_p : ¬(st.edges.getD k default).src = p := fun h =>
          hk (by rw [h]; exact List.mem_cons_self _ _)
        have hk2 : (st.edges.getD k default).src ∉ pre2 := fun h =>
          hk (List.mem_cons_of_mem _ h)
        have hmid : (⟨fan_out stA.edges p stA.out, stA.dry, stA.out⟩ : StepState).edges.getD
            k default = st.edges.getD k default := by
          show (fan_out stA.edges p stA.out).getD k default = _
          rw [hE]
          exact fan_out_getD_of_src_ne _ _ _ _ hk_ne_p
        rw [hslots k (by rw [hmid]; exact hk2), hmid]

/-- C7 witness: on the chain `0 → 1 → 2` with output node 1, the pass stops at
node 1; the outgoing connection `1 → 2` still holds its pre-pass (empty)
buffer while `0 → 1` was written. -/
theorem C7_witness :
    run_visit [nodeConst 1, nodeConst 2, nodeConst 3] 1 1 ([0] ++ 1 :: [2]) stW7 =
      some ⟨[⟨0, 1, [1]⟩, ⟨1, 2, []⟩], [1], [2]⟩ ∧
    (⟨[⟨0, 1, [1]⟩, ⟨1, 2, []⟩], [1], [2]⟩ : StepState).edges.getD 1 default =
      stW7.edges.getD 1 default :=
  ⟨by decide,
   (C7_early_termination [nodeConst 1, nodeConst 2, nodeConst 3] 1 1 [0] [2] stW7
      ⟨[⟨0, 1, [1]⟩, ⟨1, 2, []⟩], [1], [2]⟩ (by decide) (by decide)).2 1 (by decide)⟩

/-- The input-summing loop succeeds whenever every incoming connection buffer
matches the accumulator length, and preserves that length. -/
theorem sum_inputs_total {idx : Nat} :
    ∀ {edges : List Con} {acc : List Int},
      (∀ e ∈ edges, e.dest = idx → e.buffer.length = acc.length) →
      ∃ s, sum_inputs idx edges acc = some s ∧ s.length = acc.length := by
  intro edges
  induction edges with
  | nil => intro acc _; exact ⟨acc, rfl, rfl⟩
  | cons e rest ih =>
    intro acc h
    by_cases hd : e.dest = idx
    · have hb : e.buffer.length = acc.length := h e (by simp) hd
      have hz : zip_add acc e.buffer =
          some (List.zipWith (fun x y => x + y) acc e.buffer) := by
        rw [zip_add, if_pos hb.symm]
      have hlen : (List.zipWith (fun x y => x + y) acc e.buffer).length = acc.length := by
        rw [List.length_zipWith, hb, Nat.min_self]
      obtain ⟨s, hs, hsl⟩ := @ih (List.zipWith (fun x y => x + y) acc e.buffer)
        fun e2 he2 hd2 => by rw [hlen]; exact h e2 (by simp [he2]) hd2
      refine ⟨s, ?_, by rw [hsl, hlen]⟩
      rw [sum_inputs, if_pos hd, hz]
      exact hs
    · obtain ⟨s, hs, hsl⟩ := ih fun e2 he2 hd2 => h e2 (by simp [he2]) hd2
      exact ⟨s, by rw [sum_inputs, if_neg hd]; exact hs, hsl⟩

/-- One render-loop iteration succeeds whenever the working buffers have the
pass length, the node's render is length-preserving (guaranteed in Rust, where
the render mutates a fixed-length slice in place) and every incoming
connection buffer already has the pass length.  The resulting state keeps the
edges and the buffer lengths. -/
theorem node_process_total (nodes : List DspNode) (idx n : Nat) (st : StepState)
    (hout : st.out.length = n) (hdry : st.dry.length = n)
    (hrender : ∀ b, ((nodes.getD idx default).render b).length = b.length)
    (hbuf : ∀ e ∈ st.edges, e.dest = idx → e.buffer.length = n) :
    ∃ st2, node_process nodes idx n st = some st2 ∧
      st2.edges = st.edges ∧ st2.out.length = n ∧ st2.dry.length = n := by
  obtain ⟨s, hs, hsl⟩ := @sum_inputs_total idx st.edges (List.replicate n 0)
    fun e he hd => by rw [List.length_replicate]; exact hbuf e he hd
  have hsn : s.length = n := by rw [hsl, List.length_replicate]
  refine ⟨⟨st.edges, s,
      List.zipWith
        (fun w d => w * (nodes.getD idx default).wet + d * (nodes.getD idx default).dry)
        ((nodes.getD idx default).render s) s⟩, ?_, rfl, ?_, by simpa using hsn⟩
  · rw [node_process, zero_fill_of_length_eq hout, Option.some_bind,
      zero_fill_of_length_eq hdry, Option.some_bind, hs, Option.some_bind]
    rw [slice_write, if_pos (by rw [List.length_replicate, hsn])]
    rw [Option.some_bind, blend, if_pos (hrender s), Option.some_bind]
  · show (List.zipWith _ _ _).length = n
    rw [List.length_zipWith, hrender s, hsn, Nat.min_self]

/-- The visit loop runs to completion (no dasp length-mismatch panic, i.e. no
`none`) whenever the order is duplicate-free, names only live nodes, the
renders are length-preserving, and every edge either already has a pass-length
buffer or has both endpoints in the remaining order with the source strictly
earlier — the invariant maintained by fan-out along a topological order. -/
theorem run_visit_total (nodes : List DspNode) (out_node n : Nat)
    (hwf : ∀ nd ∈ nodes, ∀ b, (nd.render b).length = b.length) :
    ∀ (todo : List Nat) (st : StepState),
      todo.Nodup →
      (∀ i ∈ todo, i < nodes.length) →
      st.out.length = n → st.dry.length = n →
      (∀ e ∈ st.edges, e.dest ∈ todo →
        e.buffer.length = n ∨
          (e.src ∈ todo ∧ todo.indexOf e.src < todo.indexOf e.dest)) →
      (run_visit nodes out_node n todo st).isSome := by
  intro todo
  induction todo with
  | nil => intro st _ _ _ _ _; rw [run_visit]; rfl
  | cons idx rest ih =>
    intro st hnodup hvalid hout hdry hinv
    have hidx : idx < nodes.length := hvalid idx (by simp)
    have hrender : ∀ b, ((nodes.getD idx default).render b).length = b.length := by
      have hmem : nodes.getD idx default ∈ nodes := by
        rw [List.getD_eq_getElem _ _ hidx]
        exact List.getElem_mem hidx
      exact hwf _ hmem
    have hbuf : ∀ e ∈ st.edges, e.dest = idx → e.buffer.length = n := by
      intro e he hd
      rcases hinv e he (by rw [hd]; exact List.mem_cons_self _ _) with h | ⟨_, hlt⟩
      · exact h
      · rw [hd, List.indexOf_cons_self] at hlt
        exact absurd hlt (Nat.not_lt_zero _)
    obtain ⟨st2, hp, hE, hout2, hdry2⟩ :=
      node_process_total nodes idx n st hout hdry hrender hbuf
    rw [run_visit, hp, Option.some_bind]
    by_cases he : idx = out_node
    · rw [if_pos he]; rfl
    · rw [if_neg he]
      have hrest_nodup := (List.nodup_cons.mp hnodup).2
      have hidx_notin := (List.nodup_cons.mp hnodup).1
      refine ih ⟨fan_out st2.edges idx st2.out, st2.dry, st2.out⟩ hrest_nodup
        (fun i hi => hvalid i (by simp [hi])) hout2 hdry2 ?_
      intro e2 he2 hdest
      rw [hE] at he2
      show e2.buffer.length = n ∨ _
      simp only [fan_out, List.mem_map] at he2
      obtain ⟨e, he, rfl⟩ := he2
      by_cases hsrc : e.src = idx
      · rw [if_pos hsrc]
        left
        exact hout2
      · rw [if_neg hsrc]
        rw [if_neg hsrc] at hdest
        rcases hinv e he (List.mem_cons_of_mem _ hdest) with h | ⟨hsm, hlt⟩
        · exact Or.inl h
        · have hsrc_mem : e.src ∈ rest := by
            rcases List.mem_cons.mp hsm with h | h
            · exact absurd h hsrc
            · exact h
          refine Or.inr ⟨hsrc_mem, ?_⟩
          have hdest_ne : e.dest ≠ idx := fun h => hidx_notin (h ▸ hdest)
          rw [List.indexOf_cons_ne rest (fun h => hsrc h.symm),
            List.indexOf_cons_ne rest (fun h => hdest_ne h.symm)] at hlt
          exact Nat.lt_of_succ_lt_succ hlt

/-- C10.  During `audio_requested_from` with an output buffer of length `N`,
provided `visit_order` is a valid topological sort of the edges naming only
live nodes each at most once (and renders preserve the in-place buffer
length, as Rust guarantees), every incoming connection buffer read by the
input-summing step already has length `N` — its source fanned it out earlier
in the same pass — so none of the modelled dasp zip/write operations ever
sees mismatched lengths and the pass returns a result rather than the `none`
that models a panic. -/
theorem C10_render_pass_no_mismatch (g : Graph) (out_node : Nat) (output : List Int)
    (hwf : ∀ nd ∈ g.nodes, ∀ b, (nd.render b).length = b.length)
    (hvalid_out : out_node < g.nodes.length)
    (hnodup : g.visit_order.Nodup)
    (hvalid : ∀ i ∈ g.visit_order, i < g.nodes.length)
    (htopo : ∀ e ∈ g.edges, e.src ∈ g.visit_order ∧ e.dest ∈ g.visit_order ∧
      g.visit_order.indexOf e.src < g.visit_order.indexOf e.dest) :
    (audio_requested_from g out_node output).isSome := by
  have hdry : (if g.dry_buffer.length ≠ output.length then
      resize_buffer_to g.dry_buffer output.length else g.dry_buffer).length =
      output.length := by
    by_cases hc : g.dry_buffer.length ≠ output.length
    · rw [if_pos hc]
      exact resize_buffer_to_length _ _
    · rw [if_neg hc]
      exact not_ne_iff.mp hc
  have hrun := run_visit_total g.nodes out_node output.length hwf g.visit_order
    ⟨g.edges,
     if g.dry_buffer.length ≠ output.length then
       resize_buffer_to g.dry_buffer output.length
     else g.dry_buffer,
     output⟩ hnodup hvalid rfl hdry
    (fun e he _ => Or.inr ⟨(htopo e he).1, (htopo e he).2.2⟩)
  rw [audio_requested_from, if_pos hvalid_out, Option.isSome_map']
  exact hrun

/-- C10 witness: the chain `0 → 1 → 2` of constant generators with its cached
visit order `[0, 1, 2]` renders to node 2 on a one-frame buffer without any
length mismatch. -/
theorem C10_witness : (audio_requested_from gChain 2 [0]).isSome := by
  apply C10_render_pass_no_mismatch gChain 2 [0] _ (by decide) (by decide) (by decide)
    (by decide)
  intro nd hnd b
  rw [show gChain.nodes = [nodeConst 1, nodeConst 2, nodeConst 3] from rfl] at hnd
  simp only [List.mem_cons, List.not_mem_nil, or_false] at hnd
  rcases hnd with rfl | rfl | rfl <;> simp [nodeConst]

end DspChain
